import Mathlib

/-!
Verification of the comment-rewriting core of godoc-repair (main.go).

Strings are modelled as lists of Unicode code points (Go iterates strings
rune by rune; a Lean Char is one Unicode scalar value, so every value of
type List Char corresponds to a valid-UTF-8 Go string, and the
utf8.ValidString guard of Split is always satisfied in this model).
The Go unicode character classes are modelled on their ASCII range.
-/

namespace GodocRepair

/-- Models unicode.IsLower on the ASCII range (Go consults the full
Unicode tables; all identifiers in the repository's examples are ASCII). -/
def isLowerRune (c : Char) : Bool :=
  97 ≤ c.toNat && c.toNat ≤ 122

/-- Models unicode.IsUpper on the ASCII range. -/
def isUpperRune (c : Char) : Bool :=
  65 ≤ c.toNat && c.toNat ≤ 90

/-- Models unicode.IsDigit on the ASCII range. -/
def isDigitRune (c : Char) : Bool :=
  48 ≤ c.toNat && c.toNat ≤ 57

/-- Models unicode.ToLower (as used by strings.ToLower) on the ASCII range. -/
def toLowerRune (c : Char) : Char :=
  if isUpperRune c then Char.ofNat (c.toNat + 32) else c

/-- The character-class assignment of Split's first loop:
1 for lower-case letters, 2 for upper-case letters, 3 for digits,
4 for everything else (main.go lines 263-273). -/
def classOf (c : Char) : Nat :=
  if isLowerRune c then 1
  else if isUpperRune c then 2
  else if isDigitRune c then 3
  else 4

/-- First character of a fragment; the blank default is never used on the
nonempty fragments the program builds (runes[i][0] in main.go). -/
def headChar : List Char → Char
  | [] => ' '
  | c :: _ => c

/-- Last character of a fragment; the blank default is never used on the
nonempty fragments the program builds (runes[i][len(runes[i])-1]). -/
def lastChar : List Char → Char
  | [] => ' '
  | [c] => c
  | _ :: c :: rest => lastChar (c :: rest)

/-- Models strings.HasPrefix combined with strings.TrimPrefix: returns
some remainder when the second list is a prefix of the first, none
otherwise. -/
def dropStart : List Char → List Char → Option (List Char)
  | s, [] => some s
  | [], _ :: _ => none
  | c :: s, p :: ps => if c = p then dropStart s ps else none

/-- Models strings.HasPrefix. -/
def startsWith (s p : List Char) : Bool :=
  (dropStart s p).isSome

/-- runes[len(runes)-1] = append(runes[len(runes)-1], r): append a rune to
the last fragment (undefined in Go on an empty fragment list; here the
empty list is returned, and the checked variant below tracks the access). -/
def appendToLast : List (List Char) → Char → List (List Char)
  | [], _ => []
  | [f], c => [f ++ [c]]
  | f :: g :: rest, c => f :: appendToLast (g :: rest) c

/-- The first loop of Split (main.go lines 260-280): group consecutive
runes of the same class into fragments, starting with lastClass = 0. -/
def groupLoop : List Char → List (List Char) → Nat → List (List Char)
  | [], runes, _ => runes
  | r :: rest, runes, lastClass =>
    groupLoop rest
      (if classOf r = lastClass then appendToLast runes r else runes ++ [[r]])
      (classOf r)

/-- The second loop of Split (main.go lines 283-288), carried out one
boundary at a time exactly as the in-place index loop does: at the pair
(f, g), if f currently starts with an upper-case letter and g currently
starts with a lower-case letter, the last rune of f is moved to the front
of g, and the loop continues at the pair (g, next) with the updated g. -/
def disambigAux (f : List Char) : List (List Char) → List (List Char)
  | [] => [f]
  | g :: rest =>
    if isUpperRune (headChar f) && isLowerRune (headChar g) then
      f.dropLast :: disambigAux (lastChar f :: g) rest
    else
      f :: disambigAux g rest

/-- The disambiguation loop of Split over the whole fragment list. -/
def disambig : List (List Char) → List (List Char)
  | [] => []
  | f :: rest => disambigAux f rest

/-- Split (main.go lines 253-296).  The utf8.ValidString guard is always
true in this model (every List Char is valid text), so only the main path
is represented; the final loop keeps the nonempty fragments. -/
def Split (src : List Char) : List (List Char) :=
  (disambig (groupLoop src [] 0)).filter (fun s => decide (0 < s.length))

/-- mockDoc (main.go lines 196-203): lower-case every fragment of
Split and join the results with single spaces. -/
def mockDoc (name : List Char) : List Char :=
  List.intercalate [' '] ((Split name).map (List.map toLowerRune))

/-- The configuration of a run: the -format flag value (a template
string with one %s placeholder, represented by the text before and after
the placeholder) and the -auto-description flag.  The -format value is
parsed into the commentFormat variable (main.go line 34), but
commentFormat is never read anywhere in the program: rendering at
main.go line 132 uses the defaultCommentFormat constant, so the format
fields below never enter any result. -/
structure Config where
  formatPre : List Char
  formatPost : List Char
  autoDescription : Bool

/-- The default configuration: -format left at its default
"// %s missing godoc.", auto-description disabled. -/
def defaultConfig : Config :=
  { formatPre := ['/', '/', ' '],
    formatPost := (" missing godoc.".toList),
    autoDescription := false }

/-- The constant defaultCommentFormat (main.go line 23) instantiated at
a name: "// %s missing godoc.". -/
def defaultCommentDoc (name : List Char) : List Char :=
  '/' :: '/' :: ' ' :: (name ++ ' ' :: ("missing godoc.".toList))

/-- The doc line computed at main.go lines 132-135:
fmt.Sprintf(defaultCommentFormat, name), or "// name mockDoc(name)" when
auto-description is enabled.  Line 132 renders with the
defaultCommentFormat constant, not with the parsed -format value
(commentFormat is never read), so the configured template fields of cfg
are ignored here exactly as the program ignores them. -/
def renderDoc (cfg : Config) (name : List Char) : List Char :=
  if cfg.autoDescription then
    '/' :: '/' :: ' ' :: (name ++ ' ' :: mockDoc name)
  else
    defaultCommentDoc name

/-- containsGoDoc (main.go lines 157-169): returns the triple
(empty, emptyName, justName) classifying the comment block. -/
def containsGoDoc (decs : List (List Char)) (name : List Char) :
    Bool × Bool × Bool :=
  match decs with
  | [] => (true, false, false)
  | first :: _ =>
    if first = '/' :: '/' :: ' ' :: name ∨ first = '/' :: '/' :: name then
      (false, false, true)
    else if startsWith first ('/' :: '/' :: ' ' :: (name ++ [' '])) = false then
      (false, true, false)
    else
      (false, false, false)

/-- The prefix list of trimPrefix (main.go lines 172-187), in source
order: "//name ", "// name: ", "// name:", "//name: ", "//name:",
"// ", "//". -/
def trimCases (name : List Char) : List (List Char) :=
  [ '/' :: '/' :: (name ++ [' ']),
    '/' :: '/' :: ' ' :: (name ++ [':', ' ']),
    '/' :: '/' :: ' ' :: (name ++ [':']),
    '/' :: '/' :: (name ++ [':', ' ']),
    '/' :: '/' :: (name ++ [':']),
    ['/', '/', ' '],
    ['/', '/'] ]

/-- The loop of trimPrefix: try each candidate prefix in order and strip
the first one that matches; if none matches, return the line unchanged. -/
def trimFirst (doc : List Char) : List (List Char) → List Char
  | [] => doc
  | c :: cs =>
    match dropStart doc c with
    | some r => r
    | none => trimFirst doc cs

/-- trimPrefix (main.go lines 171-194). -/
def trimPrefix (doc name : List Char) : List Char :=
  trimFirst doc (trimCases name)

/-- all[0] = h: replace the head line of a comment block (undefined in Go
on an empty block; here the empty block is returned, and the checked
variant below tracks the access). -/
def setHead (lines : List (List Char)) (h : List Char) : List (List Char) :=
  match lines with
  | [] => []
  | _ :: rest => h :: rest

/-- Head line of a comment block, with an unused default. -/
def headLine (lines : List (List Char)) : List Char :=
  match lines with
  | [] => []
  | first :: _ => first

/-- autoDecl (main.go lines 127-154), the rewrite function of the spec:
the identifier's name, its exported flag, the comment block attached to
the declaration, and the run configuration map to the corrected comment
block.  The three branches are applied in source order to the evolving
block; containsGoDoc sets at most one of the three flags, so at most one
branch fires. -/
def autoDecl (name : List Char) (exported : Bool)
    (lines : List (List Char)) (cfg : Config) : List (List Char) :=
  if exported = false then lines
  else
    let doc := renderDoc cfg name
    let flags := containsGoDoc lines name
    let l1 := if flags.1 then doc :: lines else lines
    let l2 :=
      if flags.2.1 then
        setHead l1
          ('/' :: '/' :: ' ' :: (name ++ ' ' :: trimPrefix (headLine l1) name))
      else l1
    if flags.2.2 then setHead l2 doc else l2

/-- A fragment composed of upper-case letters (the left-fragment side
condition of the spec's disambiguation rule). -/
def allUpper (f : List Char) : Bool :=
  f.all isUpperRune

/-- The spec's disambiguation condition for one adjacent fragment pair:
the left fragment is composed of upper-case letters and the right
fragment begins with a lower-case letter. -/
def specMove (f g : List Char) : Bool :=
  allUpper f && isLowerRune (headChar g)

/-- The spec's disambiguation pass: decide every boundary from the
original fragments (the carry records a code point moved in from the
left, which is prepended to the output without entering any decision). -/
def disambigSpecAux (carry : Option Char) (f : List Char) :
    List (List Char) → List (List Char)
  | [] => [carry.toList ++ f]
  | g :: rest =>
    if specMove f g then
      (carry.toList ++ f.dropLast) :: disambigSpecAux (some (lastChar f)) g rest
    else
      (carry.toList ++ f) :: disambigSpecAux none g rest

/-- The spec's disambiguation pass over the whole fragment list. -/
def disambigSpec : List (List Char) → List (List Char)
  | [] => []
  | f :: rest => disambigSpecAux none f rest

/-- The spec's description of the segmenter: class grouping, then the
single original-classification disambiguation pass, then dropping the
fragments left empty. -/
def segmentSpec (src : List Char) : List (List Char) :=
  (disambigSpec (groupLoop src [] 0)).filter (fun s => decide (0 < s.length))

/-- Checked variant of appendToLast: the runes[len(runes)-1] access fails
on an empty fragment list. -/
def appendToLastChecked : List (List Char) → Char → Option (List (List Char))
  | [], _ => none
  | [f], c => some [f ++ [c]]
  | f :: g :: rest, c =>
    (appendToLastChecked (g :: rest) c).map (fun l => f :: l)

/-- Checked variant of the grouping loop. -/
def groupLoopChecked : List Char → List (List Char) → Nat →
    Option (List (List Char))
  | [], runes, _ => some runes
  | r :: rest, runes, lastClass =>
    match
      (if classOf r = lastClass then appendToLastChecked runes r
       else some (runes ++ [[r]])) with
    | none => none
    | some runes1 => groupLoopChecked rest runes1 (classOf r)

/-- Checked variant of the disambiguation loop: the runes[i][0],
runes[i+1][0] and runes[i][len(runes[i])-1] accesses fail on empty
fragments, with the same short-circuit order as the Go condition. -/
def disambigAuxChecked (f : List Char) : List (List Char) →
    Option (List (List Char))
  | [] => some [f]
  | g :: rest =>
    match f with
    | [] => none
    | a :: f' =>
      if isUpperRune a then
        match g with
        | [] => none
        | b :: g' =>
          if isLowerRune b then
            (disambigAuxChecked (lastChar (a :: f') :: b :: g') rest).map
              (fun l => (a :: f').dropLast :: l)
          else
            (disambigAuxChecked (b :: g') rest).map (fun l => (a :: f') :: l)
      else
        (disambigAuxChecked g rest).map (fun l => (a :: f') :: l)

/-- Checked variant of Split. -/
def SplitChecked (src : List Char) : Option (List (List Char)) :=
  match groupLoopChecked src [] 0 with
  | none => none
  | some runes =>
    match runes with
    | [] => some []
    | f :: rest =>
      (disambigAuxChecked f rest).map
        (List.filter (fun s => decide (0 < s.length)))

/-- Checked variant of mockDoc. -/
def mockDocChecked (name : List Char) : Option (List Char) :=
  (SplitChecked name).map
    (fun rs => List.intercalate [' '] (rs.map (List.map toLowerRune)))

/-- Checked variant of renderDoc (like the code, it renders with the
defaultCommentFormat constant, never with the parsed -format value). -/
def renderDocChecked (cfg : Config) (name : List Char) : Option (List Char) :=
  if cfg.autoDescription then
    (mockDocChecked name).map (fun d => '/' :: '/' :: ' ' :: (name ++ ' ' :: d))
  else
    some (defaultCommentDoc name)

/-- Checked variant of autoDecl: every all[0] head access fails on an
empty block, and the segmenter accesses are threaded through the checked
variants above. -/
def autoDeclChecked (name : List Char) (exported : Bool)
    (lines : List (List Char)) (cfg : Config) :
    Option (List (List Char)) :=
  if exported = false then some lines
  else
    match renderDocChecked cfg name with
    | none => none
    | some doc =>
      let flags := containsGoDoc lines name
      let l1 := if flags.1 then doc :: lines else lines
      match
        (if flags.2.1 then
          match l1 with
          | [] => none
          | first :: rest =>
            some (('/' :: '/' :: ' ' ::
              (name ++ ' ' :: trimPrefix first name)) :: rest)
         else some l1) with
      | none => none
      | some l2 =>
        if flags.2.2 then
          match l2 with
          | [] => none
          | _ :: rest => some (doc :: rest)
        else some l2

theorem isUpperRune_not_lower {c : Char} (h : isUpperRune c = true) :
    isLowerRune c = false := by
  simp [isUpperRune, isLowerRune] at *
  omega

theorem classOf_ne_zero (c : Char) : classOf c ≠ 0 := by
  unfold classOf
  split
  · simp
  · split
    · simp
    · split <;> simp

theorem classOf_eq_one {c : Char} (h : isLowerRune c = true) : classOf c = 1 := by
  simp [classOf, h]

theorem lower_of_classOf_eq_one {c : Char} (h : classOf c = 1) :
    isLowerRune c = true := by
  unfold classOf at h
  split at h
  · assumption
  · split at h
    · simp at h
    · split at h <;> simp at h

theorem classOf_eq_two {c : Char} (h : isUpperRune c = true) : classOf c = 2 := by
  simp [classOf, isUpperRune_not_lower h, h]

theorem upper_of_classOf_eq_two {c : Char} (h : classOf c = 2) :
    isUpperRune c = true := by
  unfold classOf at h
  split at h
  · simp at h
  · split at h
    · assumption
    · split at h <;> simp at h

theorem upperRune_ne_space {u : Char} (h : isUpperRune u = true) : u ≠ ' ' := by
  rintro rfl
  exact absurd h (by decide)

theorem upperRune_ne_colon {u : Char} (h : isUpperRune u = true) : u ≠ ':' := by
  rintro rfl
  exact absurd h (by decide)

theorem length_ne {l m : List Char} (h : l.length ≠ m.length) : l ≠ m :=
  fun hc => h (by rw [hc])

theorem append_cons_ne {l m : List Char} {c : Char} : l ++ c :: m ≠ l := by
  apply length_ne
  simp

theorem dropStart_of_append (p r : List Char) :
    dropStart (p ++ r) p = some r := by
  induction p with
  | nil => simp [dropStart]
  | cons c ps ih => simp [dropStart, ih]

theorem eq_append_of_dropStart {s p r : List Char}
    (h : dropStart s p = some r) : s = p ++ r := by
  induction p generalizing s with
  | nil =>
    cases s <;> simp_all [dropStart]
  | cons c ps ih =>
    cases s with
    | nil => simp [dropStart] at h
    | cons a s' =>
      by_cases hac : a = c
      · subst hac
        simp only [dropStart, if_pos rfl] at h
        simpa using ih h
      · simp [dropStart, hac] at h

theorem drop_eq_of_dropStart {s p r : List Char}
    (h : dropStart s p = some r) : r = s.drop p.length := by
  rw [eq_append_of_dropStart h, List.drop_left]

theorem dropStart_append_both (l a b : List Char) :
    dropStart (l ++ a) (l ++ b) = dropStart a b := by
  induction l with
  | nil => rfl
  | cons c ls ih => simp [dropStart, ih]

theorem startsWith_of_append (p r : List Char) :
    startsWith (p ++ r) p = true := by
  simp [startsWith, dropStart_of_append]

theorem lastChar_mem {f : List Char} (h : f ≠ []) : lastChar f ∈ f := by
  induction f with
  | nil => exact absurd rfl h
  | cons a f' ih =>
    cases f' with
    | nil => simp [lastChar]
    | cons b f'' =>
      simp only [lastChar]
      exact List.mem_cons_of_mem a (ih (by simp))

theorem dropLast_lastChar {f : List Char} (t : List Char) (h : f ≠ []) :
    f.dropLast ++ lastChar f :: t = f ++ t := by
  induction f with
  | nil => exact absurd rfl h
  | cons a f' ih =>
    cases f' with
    | nil => simp [lastChar]
    | cons b f'' =>
      simp only [List.dropLast_cons₂, lastChar, List.cons_append]
      rw [ih (by simp)]
      simp

/-- A fragment as produced by the grouping loop: nonempty, and all its
runes share the class of its first rune. -/
def fragOk (f : List Char) : Bool :=
  match f with
  | [] => false
  | c :: rest => rest.all (fun d => classOf d == classOf c)

/-- Adjacent fragments carry distinct classes. -/
def adjOk (f : List Char) : List (List Char) → Bool
  | [] => true
  | g :: _ => classOf (headChar f) != classOf (headChar g)

/-- The shape invariant of the grouping loop's output: every fragment is
nonempty and class-homogeneous, and adjacent fragments have distinct
classes. -/
def chainOk : List (List Char) → Bool
  | [] => true
  | f :: rest => fragOk f && adjOk f rest && chainOk rest

/-- Class of the last fragment (0 for the empty list, matching the
initial lastClass of the loop). -/
def classOfLast : List (List Char) → Nat
  | [] => 0
  | [f] => classOf (headChar f)
  | _ :: g :: rest => classOfLast (g :: rest)

theorem fragOk_ne_nil {f : List Char} (h : fragOk f = true) : f ≠ [] := by
  cases f <;> simp_all [fragOk]

theorem fragOk_iff (c : Char) (cs : List Char) :
    fragOk (c :: cs) = true ↔ ∀ d ∈ cs, classOf d = classOf c := by
  simp [fragOk]

theorem chainOk_cons_iff (f : List Char) (rest : List (List Char)) :
    chainOk (f :: rest) = true ↔
      fragOk f = true ∧ adjOk f rest = true ∧ chainOk rest = true := by
  show (fragOk f && adjOk f rest && chainOk rest) = true ↔ _
  simp [Bool.and_eq_true, and_assoc]

theorem adjOk_cons_iff (f g : List Char) (rest : List (List Char)) :
    adjOk f (g :: rest) = true ↔
      classOf (headChar f) ≠ classOf (headChar g) := by
  show (classOf (headChar f) != classOf (headChar g)) = true ↔ _
  simp [bne_iff_ne]

theorem appendToLast_ne_nil (g : List Char) (rest : List (List Char))
    (r : Char) : appendToLast (g :: rest) r ≠ [] := by
  cases rest <;> simp [appendToLast]

theorem appendToLast_ok (rest : List (List Char)) :
    ∀ (g : List Char) (r : Char),
      chainOk (g :: rest) = true →
      classOfLast (g :: rest) = classOf r →
      chainOk (appendToLast (g :: rest) r) = true ∧
      classOfLast (appendToLast (g :: rest) r) = classOf r ∧
      headChar (headLine (appendToLast (g :: rest) r)) = headChar g := by
  induction rest with
  | nil =>
    intro g r hok hcl
    obtain ⟨hfrag, -, -⟩ := (chainOk_cons_iff g []).mp hok
    cases g with
    | nil => exact absurd rfl (fragOk_ne_nil hfrag)
    | cons c cs =>
      have hcs : ∀ d ∈ cs, classOf d = classOf c := (fragOk_iff c cs).mp hfrag
      have hc : classOf c = classOf r := by
        simpa [classOfLast, headChar] using hcl
      have hfrag' : fragOk (c :: (cs ++ [r])) = true := by
        rw [fragOk_iff]
        intro d hd
        rcases List.mem_append.mp hd with hd' | hd'
        · exact hcs d hd'
        · simp at hd'
          subst hd'
          exact hc.symm
      refine ⟨?_, ?_, ?_⟩
      · simp only [appendToLast, List.cons_append]
        rw [chainOk_cons_iff]
        exact ⟨hfrag', rfl, rfl⟩
      · simp only [appendToLast, List.cons_append, classOfLast, headChar]
        exact hc
      · simp [appendToLast, headLine, headChar]
  | cons h rest' ih =>
    intro g r hok hcl
    obtain ⟨hfg, hadj, hrest⟩ := (chainOk_cons_iff g (h :: rest')).mp hok
    have hadj' : classOf (headChar g) ≠ classOf (headChar h) :=
      (adjOk_cons_iff g h _).mp hadj
    have hcl' : classOfLast (h :: rest') = classOf r := by
      simpa [classOfLast] using hcl
    obtain ⟨h1, h2, h3⟩ := ih h r hrest hcl'
    cases hX : appendToLast (h :: rest') r with
    | nil => exact absurd hX (appendToLast_ne_nil h rest' r)
    | cons x xs =>
      rw [hX] at h1 h2 h3
      simp only [headLine] at h3
      have stepEq : appendToLast (g :: h :: rest') r = g :: x :: xs := by
        simp [appendToLast, hX]
      rw [stepEq]
      refine ⟨?_, ?_, ?_⟩
      · rw [chainOk_cons_iff]
        refine ⟨hfg, ?_, h1⟩
        rw [adjOk_cons_iff, h3]
        exact hadj'
      · simpa [classOfLast] using h2
      · simp [headLine]

theorem chainOk_snoc (r : Char) :
    ∀ (runes : List (List Char)),
      chainOk runes = true → classOf r ≠ classOfLast runes →
      chainOk (runes ++ [[r]]) = true ∧
      classOfLast (runes ++ [[r]]) = classOf r := by
  intro runes
  induction runes with
  | nil =>
    intro _ _
    constructor
    · rw [List.nil_append, chainOk_cons_iff]
      refine ⟨?_, rfl, rfl⟩
      rw [fragOk_iff]
      simp
    · simp [classOfLast, headChar]
  | cons f rest ih =>
    intro hok hne
    obtain ⟨hfrag, hadj, hrest⟩ := (chainOk_cons_iff f rest).mp hok
    cases rest with
    | nil =>
      have hne' : classOf r ≠ classOf (headChar f) := by
        simpa [classOfLast] using hne
      constructor
      · rw [show (f :: ([] : List (List Char))) ++ [[r]] = f :: [[r]] from rfl]
        rw [chainOk_cons_iff]
        refine ⟨hfrag, ?_, ?_⟩
        · rw [adjOk_cons_iff]
          simp only [headChar]
          exact fun he => hne' he.symm
        · rw [chainOk_cons_iff]
          refine ⟨?_, rfl, rfl⟩
          rw [fragOk_iff]
          simp
      · simp [classOfLast, headChar]
    | cons g rest' =>
      have hne'' : classOf r ≠ classOfLast (g :: rest') := by
        simpa [classOfLast] using hne
      obtain ⟨h1, h2⟩ := ih hrest hne''
      constructor
      · rw [List.cons_append, chainOk_cons_iff]
        refine ⟨hfrag, ?_, ?_⟩
        · rw [List.cons_append, adjOk_cons_iff]
          exact (adjOk_cons_iff f g rest').mp hadj
        · exact h1
      · rw [List.cons_append]
        rw [List.cons_append] at h2 ⊢
        simpa [classOfLast] using h2

theorem groupLoop_chainOk (src : List Char) :
    ∀ (runes : List (List Char)) (cl : Nat),
      chainOk runes = true → classOfLast runes = cl →
      chainOk (groupLoop src runes cl) = true := by
  induction src with
  | nil =>
    intro runes cl h _
    simpa [groupLoop] using h
  | cons r rest ih =>
    intro runes cl hok hcl
    simp only [groupLoop]
    by_cases hc : classOf r = cl
    · rw [if_pos hc]
      cases runes with
      | nil =>
        exact absurd (hc.trans hcl.symm) (classOf_ne_zero r)
      | cons g rs =>
        obtain ⟨h1, h2, -⟩ :=
          appendToLast_ok rs g r hok (by rw [hcl]; exact hc.symm)
        exact ih _ _ h1 h2
    · rw [if_neg hc]
      obtain ⟨h1, h2⟩ :=
        chainOk_snoc r runes hok (by rw [hcl]; exact hc)
      exact ih _ _ h1 h2

theorem chainOk_frags_ne_nil :
    ∀ {l : List (List Char)}, chainOk l = true → ∀ f ∈ l, f ≠ [] := by
  intro l
  induction l with
  | nil =>
    intro _ f hf
    simp at hf
  | cons g rest ih =>
    intro h f hf
    obtain ⟨h1, -, h3⟩ := (chainOk_cons_iff g rest).mp h
    rcases List.mem_cons.mp hf with rfl | hf'
    · exact fragOk_ne_nil h1
    · exact ih h3 f hf'

theorem isLowerRune_not_upper {c : Char} (h : isLowerRune c = true) :
    isUpperRune c = false := by
  simp [isUpperRune, isLowerRune] at *
  omega

theorem upper_head_iff_allUpper {g : List Char} (h : fragOk g = true) :
    isUpperRune (headChar g) = allUpper g := by
  cases g with
  | nil => exact absurd rfl (fragOk_ne_nil h)
  | cons c cs =>
    simp only [headChar, allUpper, List.all_cons]
    cases hu : isUpperRune c with
    | false => simp
    | true =>
      simp only [Bool.true_and]
      symm
      rw [List.all_eq_true]
      intro d hd
      exact upper_of_classOf_eq_two
        (((fragOk_iff c cs).mp h d hd).trans (classOf_eq_two hu))

theorem allUpper_lastChar {g : List Char} (hne : g ≠ [])
    (h : allUpper g = true) : isUpperRune (lastChar g) = true :=
  (List.all_eq_true.mp h) (lastChar g) (lastChar_mem hne)

theorem disambigAux_eq_spec :
    ∀ (rest : List (List Char)) (g : List Char) (carry : Option Char),
      chainOk (g :: rest) = true →
      (∀ c, carry = some c →
        isUpperRune c = true ∧ isLowerRune (headChar g) = true) →
      disambigAux (carry.toList ++ g) rest = disambigSpecAux carry g rest := by
  intro rest
  induction rest with
  | nil =>
    intro g carry _ _
    cases carry <;> rfl
  | cons h rest' ih =>
    intro g carry hok hcarry
    obtain ⟨hfg, hadj, hrest⟩ := (chainOk_cons_iff g (h :: rest')).mp hok
    have hadjgh : classOf (headChar g) ≠ classOf (headChar h) :=
      (adjOk_cons_iff g h rest').mp hadj
    cases carry with
    | none =>
      simp only [Option.toList, List.nil_append]
      have hcond : specMove g h =
          (isUpperRune (headChar g) && isLowerRune (headChar h)) := by
        unfold specMove
        rw [upper_head_iff_allUpper hfg]
      cases hmove : isUpperRune (headChar g) && isLowerRune (headChar h) with
      | true =>
        obtain ⟨hup, hlow⟩ := Bool.and_eq_true_iff.mp hmove
        have hlast : isUpperRune (lastChar g) = true :=
          allUpper_lastChar (fragOk_ne_nil hfg)
            ((upper_head_iff_allUpper hfg) ▸ hup)
        simp only [disambigAux, disambigSpecAux, hcond, hmove, if_true,
          Option.toList, List.nil_append]
        have := ih h (some (lastChar g)) hrest
          (by
            intro c hc
            cases hc
            exact ⟨hlast, hlow⟩)
        simpa using this
      | false =>
        simp only [disambigAux, disambigSpecAux, hcond, hmove,
          Bool.false_eq_true, if_false, Option.toList, List.nil_append]
        have := ih h none hrest (by intro c hc; cases hc)
        simpa using this
    | some c =>
      obtain ⟨hcu, hgl⟩ := hcarry c rfl
      have hh1 : classOf (headChar g) = 1 := classOf_eq_one hgl
      have hhl : isLowerRune (headChar h) = false := by
        cases hl : isLowerRune (headChar h)
        · rfl
        · exact absurd (hh1.trans (classOf_eq_one hl).symm) hadjgh
      have hs : specMove g h = false := by
        simp [specMove, hhl]
      have htail := ih h none hrest (by intro d hd; cases hd)
      simp only [Option.toList, List.nil_append] at htail
      simp only [disambigAux, disambigSpecAux, hs, Bool.false_eq_true,
        if_false, Option.toList, List.singleton_append]
      rw [if_neg (by
        intro hcc
        simp [hhl] at hcc)]
      rw [htail]

theorem Split_eq_segmentSpec (s : List Char) : Split s = segmentSpec s := by
  unfold Split segmentSpec
  have hchain : chainOk (groupLoop s [] 0) = true :=
    groupLoop_chainOk s [] 0 rfl rfl
  congr 1
  cases hG : groupLoop s [] 0 with
  | nil => rfl
  | cons f rest =>
    rw [hG] at hchain
    show disambigAux f rest = disambigSpecAux none f rest
    have := disambigAux_eq_spec rest f none hchain (by intro c hc; cases hc)
    simpa using this

theorem flatten_filter_pos (l : List (List Char)) :
    (l.filter (fun s => decide (0 < s.length))).flatten = l.flatten := by
  induction l with
  | nil => rfl
  | cons f rest ih =>
    cases f with
    | nil => simpa [List.filter_cons] using ih
    | cons c cs => simp [List.filter_cons, ih]

theorem disambigAux_flatten :
    ∀ (rest : List (List Char)) (f : List Char),
      (disambigAux f rest).flatten = f ++ rest.flatten := by
  intro rest
  induction rest with
  | nil =>
    intro f
    simp [disambigAux]
  | cons g rest' ih =>
    intro f
    by_cases hcond :
        (isUpperRune (headChar f) && isLowerRune (headChar g)) = true
    · have hf : f ≠ [] := by
        intro he
        subst he
        simp only [headChar] at hcond
        have : isUpperRune ' ' = false := by decide
        rw [this] at hcond
        simp at hcond
      simp only [disambigAux]
      rw [if_pos hcond]
      simp only [List.flatten_cons]
      rw [ih]
      simp only [List.cons_append]
      rw [dropLast_lastChar (g ++ rest'.flatten) hf]
    · simp only [disambigAux]
      rw [if_neg hcond]
      simp only [List.flatten_cons]
      rw [ih]

theorem appendToLast_flatten :
    ∀ (rest : List (List Char)) (g : List Char) (r : Char),
      (appendToLast (g :: rest) r).flatten = (g :: rest).flatten ++ [r] := by
  intro rest
  induction rest with
  | nil =>
    intro g r
    simp [appendToLast]
  | cons h rest' ih =>
    intro g r
    simp only [appendToLast, List.flatten_cons]
    rw [ih]
    simp

theorem groupLoop_flatten (src : List Char) :
    ∀ (runes : List (List Char)) (cl : Nat),
      (runes = [] → cl = 0) →
      (groupLoop src runes cl).flatten = runes.flatten ++ src := by
  induction src with
  | nil =>
    intro runes cl _
    simp [groupLoop]
  | cons r rest ih =>
    intro runes cl hinv
    simp only [groupLoop]
    by_cases hc : classOf r = cl
    · rw [if_pos hc]
      cases runes with
      | nil => exact absurd (hc.trans (hinv rfl)) (classOf_ne_zero r)
      | cons g rs =>
        rw [ih (appendToLast (g :: rs) r) (classOf r)
          (fun he => absurd he (appendToLast_ne_nil g rs r))]
        rw [appendToLast_flatten]
        simp
    · rw [if_neg hc]
      rw [ih _ _ (by simp)]
      simp

theorem appendToLastChecked_eq (rest : List (List Char)) :
    ∀ (g : List Char) (r : Char),
      appendToLastChecked (g :: rest) r =
        some (appendToLast (g :: rest) r) := by
  induction rest with
  | nil =>
    intro g r
    rfl
  | cons h rest' ih =>
    intro g r
    simp only [appendToLastChecked, appendToLast, ih, Option.map_some']

theorem groupLoopChecked_eq (src : List Char) :
    ∀ (runes : List (List Char)) (cl : Nat),
      (runes = [] → cl = 0) →
      groupLoopChecked src runes cl = some (groupLoop src runes cl) := by
  induction src with
  | nil =>
    intro runes cl _
    rfl
  | cons r rest ih =>
    intro runes cl hinv
    simp only [groupLoopChecked, groupLoop]
    by_cases hc : classOf r = cl
    · rw [if_pos hc, if_pos hc]
      cases runes with
      | nil => exact absurd (hc.trans (hinv rfl)) (classOf_ne_zero r)
      | cons g rs =>
        rw [appendToLastChecked_eq rs g r]
        exact ih _ _ (fun he => absurd he (appendToLast_ne_nil g rs r))
    · rw [if_neg hc, if_neg hc]
      exact ih _ _ (by simp)

theorem disambigAuxChecked_eq :
    ∀ (rest : List (List Char)) (f : List Char),
      f ≠ [] → (∀ g ∈ rest, g ≠ []) →
      disambigAuxChecked f rest = some (disambigAux f rest) := by
  intro rest
  induction rest with
  | nil =>
    intro f _ _
    rfl
  | cons g rest' ih =>
    intro f hf hrest
    have hg : g ≠ [] := hrest g (by simp)
    have hrest' : ∀ x ∈ rest', x ≠ [] :=
      fun x hx => hrest x (List.mem_cons_of_mem g hx)
    cases f with
    | nil => exact absurd rfl hf
    | cons a f' =>
      cases g with
      | nil => exact absurd rfl hg
      | cons b g' =>
        simp only [disambigAuxChecked, disambigAux, headChar]
        by_cases ha : isUpperRune a = true
        · rw [if_pos ha]
          by_cases hb : isLowerRune b = true
          · rw [if_pos hb, if_pos (by simp [ha, hb])]
            rw [ih (lastChar (a :: f') :: b :: g') (by simp) hrest']
            rfl
          · rw [if_neg hb, if_neg (by simp [hb])]
            rw [ih (b :: g') (by simp) hrest']
            rfl
        · rw [if_neg ha, if_neg (by simp [ha])]
          rw [ih (b :: g') (by simp) hrest']
          rfl

theorem SplitChecked_eq (s : List Char) : SplitChecked s = some (Split s) := by
  unfold SplitChecked Split
  rw [groupLoopChecked_eq s [] 0 (fun _ => rfl)]
  have hchain : chainOk (groupLoop s [] 0) = true :=
    groupLoop_chainOk s [] 0 rfl rfl
  cases hG : groupLoop s [] 0 with
  | nil => rfl
  | cons f rest =>
    rw [hG] at hchain
    have hne := chainOk_frags_ne_nil hchain
    have h1 :=
      disambigAuxChecked_eq rest f (hne f (by simp))
        (fun g hg => hne g (List.mem_cons_of_mem f hg))
    simp only [h1, Option.map_some', disambig]

theorem renderDocChecked_eq (cfg : Config) (name : List Char) :
    renderDocChecked cfg name = some (renderDoc cfg name) := by
  unfold renderDocChecked renderDoc mockDocChecked
  cases hauto : cfg.autoDescription with
  | false => simp
  | true => simp [SplitChecked_eq, mockDoc]

theorem autoDeclChecked_eq (name : List Char) (exported : Bool)
    (lines : List (List Char)) (cfg : Config) :
    autoDeclChecked name exported lines cfg =
      some (autoDecl name exported lines cfg) := by
  unfold autoDeclChecked autoDecl
  by_cases he : exported = false
  · rw [if_pos he, if_pos he]
  · rw [if_neg he, if_neg he]
    rw [renderDocChecked_eq]
    cases lines with
    | nil => simp [containsGoDoc, setHead, headLine]
    | cons first rest =>
      by_cases h1 :
          first = '/' :: '/' :: ' ' :: name ∨ first = '/' :: '/' :: name
      · simp [containsGoDoc, h1, setHead, headLine]
      · by_cases h2 :
            startsWith first ('/' :: '/' :: ' ' :: (name ++ [' '])) = false
        · simp [containsGoDoc, h1, h2, setHead, headLine]
        · simp [containsGoDoc, h1, h2, setHead, headLine]

theorem autoDecl_nil (name : List Char) (cfg : Config) :
    autoDecl name true [] cfg = [renderDoc cfg name] := rfl

theorem autoDecl_justName {first name : List Char}
    (h : first = '/' :: '/' :: ' ' :: name ∨ first = '/' :: '/' :: name)
    (rest : List (List Char)) (cfg : Config) :
    autoDecl name true (first :: rest) cfg = renderDoc cfg name :: rest := by
  simp [autoDecl, containsGoDoc, h, setHead]

theorem autoDecl_emptyName {first name : List Char}
    (h1 : ¬(first = '/' :: '/' :: ' ' :: name ∨ first = '/' :: '/' :: name))
    (h2 : startsWith first ('/' :: '/' :: ' ' :: (name ++ [' '])) = false)
    (rest : List (List Char)) (cfg : Config) :
    autoDecl name true (first :: rest) cfg =
      ('/' :: '/' :: ' ' :: (name ++ ' ' :: trimPrefix first name)) :: rest := by
  simp [autoDecl, containsGoDoc, h1, h2, setHead, headLine]

theorem autoDecl_wf {first name : List Char}
    (h1 : ¬(first = '/' :: '/' :: ' ' :: name ∨ first = '/' :: '/' :: name))
    (h2 : startsWith first ('/' :: '/' :: ' ' :: (name ++ [' '])) = true)
    (rest : List (List Char)) (cfg : Config) :
    autoDecl name true (first :: rest) cfg = first :: rest := by
  simp [autoDecl, containsGoDoc, h1, h2]

/-- A configuration whose -format value is "%s": recorded in the
configuration exactly as the flag parser records it, but (like the
program) never consulted by the rendering. -/
def percentConfig : Config :=
  { formatPre := [], formatPost := [], autoDescription := false }

theorem startsWith_cons (x : Char) (s p : List Char) :
    startsWith (x :: s) (x :: p) = startsWith s p := by
  simp [startsWith, dropStart]

theorem startsWith_append_both (l a b : List Char) :
    startsWith (l ++ a) (l ++ b) = startsWith a b := by
  simp [startsWith, dropStart_append_both]

theorem startsWith_append_cons (l : List Char) (c : Char) (m : List Char) :
    startsWith (l ++ c :: m) (l ++ [c]) = true := by
  rw [startsWith_append_both]
  simp [startsWith, dropStart]

theorem startsWith_docLine (name X : List Char) :
    startsWith ('/' :: '/' :: ' ' :: (name ++ ' ' :: X))
      ('/' :: '/' :: ' ' :: (name ++ [' '])) = true := by
  rw [startsWith_cons, startsWith_cons, startsWith_cons]
  exact startsWith_append_cons name ' ' X

theorem renderDoc_startsWith (cfg : Config) (name : List Char) :
    startsWith (renderDoc cfg name)
      ('/' :: '/' :: ' ' :: (name ++ [' '])) = true := by
  unfold renderDoc defaultCommentDoc
  split
  · exact startsWith_docLine name (mockDoc name)
  · exact startsWith_docLine name ("missing godoc.".toList)

theorem autoDecl_doc_fixed (cfg : Config) (name : List Char)
    (rest : List (List Char)) :
    autoDecl name true (renderDoc cfg name :: rest) cfg =
      renderDoc cfg name :: rest := by
  by_cases hj : renderDoc cfg name = '/' :: '/' :: ' ' :: name ∨
      renderDoc cfg name = '/' :: '/' :: name
  · rw [autoDecl_justName hj rest cfg]
  · exact autoDecl_wf hj (renderDoc_startsWith cfg name) rest cfg

theorem trimFirst_eq_find (doc : List Char) :
    ∀ (cs : List (List Char)),
      trimFirst doc cs =
        match cs.find? (fun c => startsWith doc c) with
        | some c => doc.drop c.length
        | none => doc := by
  intro cs
  induction cs with
  | nil => rfl
  | cons c cs' ih =>
    simp only [trimFirst, List.find?_cons]
    cases hd : dropStart doc c with
    | none =>
      have hsw : startsWith doc c = false := by simp [startsWith, hd]
      simp [hsw, ih]
    | some r =>
      have hsw : startsWith doc c = true := by simp [startsWith, hd]
      simp [hsw]
      exact drop_eq_of_dropStart hd

theorem startsWith_cons_ne {c p : Char} (h : ¬(c = p)) (s ps : List Char) :
    startsWith (c :: s) (p :: ps) = false := by
  simp [startsWith, dropStart, h]

theorem bare_formA {u : Char} (hu : isUpperRune u = true)
    (nm : List Char) (rest : List (List Char)) (cfg : Config) :
    autoDecl (u :: nm) true
      (('/' :: '/' :: ' ' :: ((u :: nm) ++ [':'])) :: rest) cfg =
      ('/' :: '/' :: ' ' :: ((u :: nm) ++ [' '])) :: rest := by
  have hsu : ¬(' ' = u) := fun he => upperRune_ne_space hu he.symm
  have h1 : ¬(('/' :: '/' :: ' ' :: ((u :: nm) ++ [':'])) =
        '/' :: '/' :: ' ' :: (u :: nm) ∨
      ('/' :: '/' :: ' ' :: ((u :: nm) ++ [':'])) =
        '/' :: '/' :: (u :: nm)) := by
    rintro (h | h)
    · simp only [List.cons_append, List.cons.injEq, true_and] at h
      exact append_cons_ne h
    · simp only [List.cons_append, List.cons.injEq, true_and] at h
      exact hsu h.1
  have h2 : startsWith ('/' :: '/' :: ' ' :: ((u :: nm) ++ [':']))
      ('/' :: '/' :: ' ' :: ((u :: nm) ++ [' '])) = false := by
    rw [startsWith_cons, startsWith_cons, startsWith_cons,
      startsWith_append_both]
    decide
  have htrim :
      trimPrefix ('/' :: '/' :: ' ' :: ((u :: nm) ++ [':'])) (u :: nm) = [] := by
    simp [trimPrefix, trimCases, trimFirst, dropStart, dropStart_append_both,
      hsu]
  rw [autoDecl_emptyName h1 h2 rest cfg, htrim]

theorem bare_formB {u : Char} (hu : isUpperRune u = true)
    (nm : List Char) (rest : List (List Char)) (cfg : Config) :
    autoDecl (u :: nm) true
      (('/' :: '/' :: ((u :: nm) ++ [':'])) :: rest) cfg =
      ('/' :: '/' :: ' ' :: ((u :: nm) ++ [' '])) :: rest := by
  have hus : ¬(u = ' ') := upperRune_ne_space hu
  have h1 : ¬(('/' :: '/' :: ((u :: nm) ++ [':'])) =
        '/' :: '/' :: ' ' :: (u :: nm) ∨
      ('/' :: '/' :: ((u :: nm) ++ [':'])) = '/' :: '/' :: (u :: nm)) := by
    rintro (h | h)
    · simp only [List.cons_append, List.cons.injEq, true_and] at h
      exact hus h.1
    · simp only [List.cons_append, List.cons.injEq, true_and] at h
      exact append_cons_ne h
  have h2 : startsWith ('/' :: '/' :: ((u :: nm) ++ [':']))
      ('/' :: '/' :: ' ' :: ((u :: nm) ++ [' '])) = false := by
    rw [startsWith_cons, startsWith_cons]
    simp only [List.cons_append]
    exact startsWith_cons_ne hus _ _
  have htrim :
      trimPrefix ('/' :: '/' :: ((u :: nm) ++ [':'])) (u :: nm) = [] := by
    simp [trimPrefix, trimCases, trimFirst, dropStart, dropStart_append_both,
      hus]
  rw [autoDecl_emptyName h1 h2 rest cfg, htrim]

theorem bare_formC {u : Char} (hu : isUpperRune u = true)
    (nm : List Char) (rest : List (List Char)) (cfg : Config) :
    autoDecl (u :: nm) true (['/', '/'] :: rest) cfg =
      ('/' :: '/' :: ' ' :: ((u :: nm) ++ [' '])) :: rest := by
  have h1 : ¬((['/', '/'] : List Char) = '/' :: '/' :: ' ' :: (u :: nm) ∨
      (['/', '/'] : List Char) = '/' :: '/' :: (u :: nm)) := by
    rintro (h | h) <;> simp at h
  have h2 : startsWith ['/', '/']
      ('/' :: '/' :: ' ' :: ((u :: nm) ++ [' '])) = false := by
    rw [startsWith_cons, startsWith_cons]
    rfl
  have htrim : trimPrefix ['/', '/'] (u :: nm) = [] := by
    simp [trimPrefix, trimCases, trimFirst, dropStart]
  rw [autoDecl_emptyName h1 h2 rest cfg, htrim]

theorem bare_formD {u : Char} (hu : isUpperRune u = true)
    (nm : List Char) (rest : List (List Char)) (cfg : Config) :
    autoDecl (u :: nm) true (['/', '/', ' '] :: rest) cfg =
      ('/' :: '/' :: ' ' :: ((u :: nm) ++ [' '])) :: rest := by
  have hsu : ¬(' ' = u) := fun he => upperRune_ne_space hu he.symm
  have h1 : ¬((['/', '/', ' '] : List Char) = '/' :: '/' :: ' ' :: (u :: nm) ∨
      (['/', '/', ' '] : List Char) = '/' :: '/' :: (u :: nm)) := by
    rintro (h | h)
    · simp at h
    · simp only [List.cons.injEq, true_and] at h
      exact hsu h.1
  have h2 : startsWith ['/', '/', ' ']
      ('/' :: '/' :: ' ' :: ((u :: nm) ++ [' '])) = false := by
    rw [startsWith_cons, startsWith_cons, startsWith_cons]
    simp only [List.cons_append]
    rfl
  have htrim : trimPrefix ['/', '/', ' '] (u :: nm) = [] := by
    simp [trimPrefix, trimCases, trimFirst, dropStart, hsu]
  rw [autoDecl_emptyName h1 h2 rest cfg, htrim]

/-- C1.  The spec's colon-case test vector pairs the identifier
"CamelCase" with the comment line "//CamelCase2: camel case".  On that
input only the generic "//" prefix strips, so the code produces
"// CamelCase CamelCase2: camel case", not the claimed
"// CamelCase2 camel case". -/
theorem c1_colon_case_counterexample :
    autoDecl ("CamelCase".toList) true ["//CamelCase2: camel case".toList]
      defaultConfig = ["// CamelCase CamelCase2: camel case".toList] ∧
    ¬(autoDecl ("CamelCase".toList) true ["//CamelCase2: camel case".toList]
      defaultConfig = ["// CamelCase2 camel case".toList]) := by
  constructor
  · decide
  · decide

/-- C1 amended.  For the identifier "CamelCase2" (the owner of that
comment line in the repository's README example) with exported = true,
the default configuration rewrites ["//CamelCase2: camel case"] to
exactly ["// CamelCase2 camel case"]. -/
theorem c1_colon_case_amended :
    autoDecl ("CamelCase2".toList) true ["//CamelCase2: camel case".toList]
      defaultConfig = ["// CamelCase2 camel case".toList] := by
  decide

/-- C2.  Rewriting is idempotent for every identifier, every comment
block and every configuration: the rendered head line (the constant
default format, or the auto-description line) always starts with
"// name ", so a second pass classifies the first pass's output as
well-formed or just-name and reproduces it unchanged. -/
theorem c2_idempotence :
    ∀ (name : List Char) (lines : List (List Char)) (cfg : Config),
      autoDecl name true (autoDecl name true lines cfg) cfg =
        autoDecl name true lines cfg := by
  intro name lines cfg
  cases lines with
  | nil =>
    rw [autoDecl_nil]
    exact autoDecl_doc_fixed cfg name []
  | cons first rest =>
    by_cases hj : first = '/' :: '/' :: ' ' :: name ∨
        first = '/' :: '/' :: name
    · rw [autoDecl_justName hj rest cfg]
      exact autoDecl_doc_fixed cfg name rest
    · by_cases hs : startsWith first
          ('/' :: '/' :: ' ' :: (name ++ [' '])) = true
      · rw [autoDecl_wf hj hs rest cfg]
        exact autoDecl_wf hj hs rest cfg
      · have hs' : startsWith first
            ('/' :: '/' :: ' ' :: (name ++ [' '])) = false := by
          simpa using hs
        rw [autoDecl_emptyName hj hs' rest cfg]
        apply autoDecl_wf
        · rintro (h | h)
          · have h' : name ++ ' ' :: trimPrefix first name = name := by
              simpa using h
            exact append_cons_ne h'
          · refine length_ne ?_ h
            simp only [List.length_cons, List.length_append]
            omega
        · rw [startsWith_cons, startsWith_cons, startsWith_cons]
          exact startsWith_append_cons name ' ' _

/-- C3.  The disambiguation loop of Split equals the spec's single
left-to-right pass over the grouped fragments that decides every move
from the original classification (left fragment composed of upper-case
letters, right fragment beginning with a lower-case letter, last code
point of the left moved to the front of the right); in particular
Split "PDFLoader" = ["PDF", "Loader"]. -/
theorem c3_single_pass_original_classification :
    (∀ (s : List Char), Split s = segmentSpec s) ∧
    Split ("PDFLoader".toList) = ["PDF".toList, "Loader".toList] := by
  refine ⟨Split_eq_segmentSpec, ?_⟩
  decide

/-- C4.  For every exported name, any configuration and a nonempty block
classified MissingNamePrefix (head line neither "// name"/"//name" nor
starting with "// name "), the output head is
"// " + name + " " + r where r strips the first matching prefix of the
trimPrefix candidate list (in source order, the whole line when none
matches, reused verbatim), and all other lines are unchanged. -/
theorem c4_missing_name_rewrite :
    ∀ (name first : List Char) (rest : List (List Char)) (cfg : Config),
      first ≠ '/' :: '/' :: ' ' :: name →
      first ≠ '/' :: '/' :: name →
      startsWith first ('/' :: '/' :: ' ' :: (name ++ [' '])) = false →
      autoDecl name true (first :: rest) cfg =
        ('/' :: '/' :: ' ' :: (name ++ ' ' :: trimPrefix first name)) :: rest ∧
      trimPrefix first name =
        (match (trimCases name).find? (fun c => startsWith first c) with
         | some c => first.drop c.length
         | none => first) := by
  intro name first rest cfg h1 h2 h3
  exact ⟨autoDecl_emptyName (fun hor => hor.elim h1 h2) h3 rest cfg,
    trimFirst_eq_find first (trimCases name)⟩

/-- C4 witness: the MissingNamePrefix rewrite at the identifier
"CamelCase2" on the head line "//CamelCase2: camel case". -/
theorem c4_missing_name_witness :
    autoDecl ("CamelCase2".toList) true ["//CamelCase2: camel case".toList]
      defaultConfig =
      ('/' :: '/' :: ' ' :: ("CamelCase2".toList ++ ' ' ::
        trimPrefix ("//CamelCase2: camel case".toList)
          ("CamelCase2".toList))) :: [] :=
  (c4_missing_name_rewrite ("CamelCase2".toList)
    ("//CamelCase2: camel case".toList) [] defaultConfig (by decide)
    (by decide) (by decide)).1

/-- C5.  The code contradicts the claim (and its own README and -format
flag declaration): the rendered line is always the constant
"// name missing godoc." (or the auto-description line), never the
configured template, because commentFormat is parsed but never read.
At the failing input (identifier "CamelCase", empty block,
configured format "%s") the program emits
["// CamelCase missing godoc."], not the template rendering
["CamelCase"]; in general the rewrite's result is independent of the
configured format fields, over every name, exported flag, comment block
and autoDescription setting. -/
theorem c5_format_flag_dead :
    autoDecl ("CamelCase".toList) true [] percentConfig =
      ["// CamelCase missing godoc.".toList] ∧
    (∀ (name : List Char) (exported : Bool) (lines : List (List Char))
      (pre post pre' post' : List Char) (ad : Bool),
      autoDecl name exported lines
          { formatPre := pre, formatPost := post, autoDescription := ad } =
        autoDecl name exported lines
          { formatPre := pre', formatPost := post',
            autoDescription := ad }) := by
  constructor
  · decide
  · intro name exported lines pre post pre' post' ad
    rfl

/-- C6.  Concatenating the fragments of Split reproduces the input
identifier exactly: no code point is dropped, duplicated or reordered
(every List Char input is valid text in this model). -/
theorem c6_total_coverage :
    ∀ (s : List Char), (Split s).flatten = s := by
  intro s
  unfold Split
  rw [flatten_filter_pos]
  have hG := groupLoop_flatten s [] 0 (fun _ => rfl)
  cases hGe : groupLoop s [] 0 with
  | nil =>
    rw [hGe] at hG
    simpa [disambig] using hG
  | cons f rest =>
    rw [hGe] at hG
    show (disambigAux f rest).flatten = s
    rw [disambigAux_flatten]
    simpa using hG

/-- C7.  On any nonempty block the rewrite changes at most the head line:
the output is some head consed onto the original tail, so every other
line survives unchanged, in position, with nothing deleted or
reordered. -/
theorem c7_head_only_frame :
    ∀ (name first : List Char) (rest : List (List Char)) (cfg : Config),
      ∃ h, autoDecl name true (first :: rest) cfg = h :: rest := by
  intro name first rest cfg
  by_cases hj : first = '/' :: '/' :: ' ' :: name ∨ first = '/' :: '/' :: name
  · exact ⟨renderDoc cfg name, autoDecl_justName hj rest cfg⟩
  · by_cases hs : startsWith first
        ('/' :: '/' :: ' ' :: (name ++ [' '])) = true
    · exact ⟨first, autoDecl_wf hj hs rest cfg⟩
    · have hs' : startsWith first
          ('/' :: '/' :: ' ' :: (name ++ [' '])) = false := by
        simpa using hs
      exact ⟨_, autoDecl_emptyName hj hs' rest cfg⟩

/-- C8.  The rewrite and the segmenter are total and never fail: the
checked variants, in which every head-line access, current-fragment
access and disambiguation fragment access is guarded, succeed on every
identifier, every comment block (including the empty one) and every
configuration, returning exactly the unchecked result. -/
theorem c8_totality :
    (∀ (s : List Char), SplitChecked s = some (Split s)) ∧
    (∀ (name : List Char) (exported : Bool) (lines : List (List Char))
      (cfg : Config),
      autoDeclChecked name exported lines cfg =
        some (autoDecl name exported lines cfg)) :=
  ⟨SplitChecked_eq, autoDeclChecked_eq⟩

/-- C9.  With exported = false the rewrite returns the comment block
unchanged, whatever the name, block and configuration. -/
theorem c9_nonexported_passthrough :
    ∀ (name : List Char) (lines : List (List Char)) (cfg : Config),
      autoDecl name false lines cfg = lines := by
  intro name lines cfg
  rfl

/-- C10.  For every exported name (upper-case first code point) whose
head line is exactly a strippable prefix with nothing after it
("// name:", "//name:", "//", or "// "), the MissingNamePrefix rewrite
produces the head line "// " + name + " " with a trailing space and an
empty description. -/
theorem c10_bare_head_trailing_space :
    ∀ (u : Char) (nm : List Char) (rest : List (List Char)) (cfg : Config),
      isUpperRune u = true →
      (autoDecl (u :: nm) true
          (('/' :: '/' :: ' ' :: ((u :: nm) ++ [':'])) :: rest) cfg =
        ('/' :: '/' :: ' ' :: ((u :: nm) ++ [' '])) :: rest) ∧
      (autoDecl (u :: nm) true
          (('/' :: '/' :: ((u :: nm) ++ [':'])) :: rest) cfg =
        ('/' :: '/' :: ' ' :: ((u :: nm) ++ [' '])) :: rest) ∧
      (autoDecl (u :: nm) true (['/', '/'] :: rest) cfg =
        ('/' :: '/' :: ' ' :: ((u :: nm) ++ [' '])) :: rest) ∧
      (autoDecl (u :: nm) true (['/', '/', ' '] :: rest) cfg =
        ('/' :: '/' :: ' ' :: ((u :: nm) ++ [' '])) :: rest) := by
  intro u nm rest cfg hu
  exact ⟨bare_formA hu nm rest cfg, bare_formB hu nm rest cfg,
    bare_formC hu nm rest cfg, bare_formD hu nm rest cfg⟩

/-- C10 witness: the bare-prefix rewrite at the identifier "Foo" with the
head line "// Foo:". -/
theorem c10_bare_head_witness :
    autoDecl ('F' :: "oo".toList) true
      [('/' :: '/' :: ' ' :: (('F' :: "oo".toList) ++ [':']))]
      defaultConfig =
      [('/' :: '/' :: ' ' :: (('F' :: "oo".toList) ++ [' ']))] :=
  (c10_bare_head_trailing_space 'F' ("oo".toList) [] defaultConfig
    (by decide)).1

end GodocRepair
